import Mathlib

/-!
Verification development for the Hybrid-Dense-Reranker repository.

Strings are modelled as lists of characters (`Str`); Python floats are
modelled as rationals (`Rat`); Python dictionaries with optional keys are
modelled as structures with `Option` fields.  External collaborators that
the source consumes as black boxes (the FAISS inner-product index, the
relevance oracle's network call, the NLTK keyword extractor, the query
expander) are modelled as explicit parameters of the search pipeline,
collected in `SearchEnv`; everything else is translated directly from
`src/hybrid_dense_reranker`.
-/

abbrev Str := List Char

/-- Python `str.strip()`: remove leading and trailing whitespace. -/
def stripChars (s : Str) : Str :=
  ((s.dropWhile Char.isWhitespace).reverse.dropWhile Char.isWhitespace).reverse

/-- Python `s.split()` (no separator): maximal non-whitespace runs, empties dropped. -/
def pyWords (s : Str) : List Str :=
  (List.splitOnP (fun c => c.isWhitespace) s).filter (fun w => decide (w ≠ []))

/-- Python `pat in s`: substring containment test. -/
def containsTok (pat : Str) : Str → Bool
  | [] => List.isPrefixOf pat []
  | c :: rest => List.isPrefixOf pat (c :: rest) || containsTok pat rest

/-- Python `str.isupper()` (ASCII): at least one letter and no lowercase letter. -/
def pyIsUpper (s : Str) : Bool :=
  s.any (fun c => c.isAlpha) && s.all (fun c => !(c.isLower))

/-- One document of the corpus (`corpus.py`).  `chunk_id` and `source` are
dictionary keys that a document may in principle lack, hence `Option`. -/
structure Doc where
  title : Str
  content : Str
  chunk_id : Option Int
  source : Option Str
deriving DecidableEq

/-! ## corpus.py: verse parsing -/

/-- `re.match(r'^\s*\d+\s+[A-Z]', line)` from `load_mormon_corpus`:
optional whitespace, at least one ASCII digit, at least one whitespace
character, then an ASCII capital letter. -/
def primaryLineMatch (line : Str) : Bool :=
  let r1 := line.dropWhile Char.isWhitespace
  let digits := r1.takeWhile Char.isDigit
  let r2 := r1.dropWhile Char.isDigit
  let ws2 := r2.takeWhile Char.isWhitespace
  let r3 := r2.dropWhile Char.isWhitespace
  decide (digits ≠ []) && decide (ws2 ≠ []) &&
    (match r3 with
     | c :: _ => decide ('A' ≤ c) && decide (c ≤ 'Z')
     | [] => false)

/-- `re.search(r'^\s*\d+\s+(.+)', line).group(1)`: the text after the leading
verse number.  On the lines it is applied to (which already passed
`primaryLineMatch`) the greedy group is exactly the remainder after the
maximal whitespace run following the digits. -/
def extractVerse (line : Str) : Option Str :=
  let r1 := line.dropWhile Char.isWhitespace
  let digits := r1.takeWhile Char.isDigit
  let r2 := r1.dropWhile Char.isDigit
  let ws2 := r2.takeWhile Char.isWhitespace
  let r3 := r2.dropWhile Char.isWhitespace
  if decide (digits ≠ []) && decide (ws2 ≠ []) && decide (r3 ≠ []) then some r3 else none

/-- The primary verse pass of `load_mormon_corpus` (corpus.py lines 21-31). -/
def parsePrimary (lines : List Str) : List Str :=
  lines.filterMap (fun l =>
    let line := stripChars l
    if primaryLineMatch line && decide (30 < line.length) then
      match extractVerse line with
      | some g =>
          let vc := stripChars g
          if decide (vc ≠ []) && decide (20 < vc.length) then some vc else none
      | none => none
    else none)

/-- `re.match(r'^1 Nephi \d+$', line)`: the literal prefix followed by one or
more digits and nothing else. -/
def bareChapterHeading (line : Str) : Bool :=
  List.isPrefixOf ("1 Nephi ".toList) line &&
    (let rest := line.drop 8
     decide (rest ≠ []) && rest.all Char.isDigit)

/-- The loose fallback selection condition of `load_mormon_corpus`
(corpus.py lines 39-45), translated with Python operator precedence:
`and` binds tighter than `or`, so the length/markup/uppercase filters and
the `'Nephi'` test form one conjunct that is then disjoined with the bare
`'Lord'` and `'came to pass'` containment tests. -/
def looseSelect (line : Str) : Bool :=
  (decide (50 < line.length) &&
   !(List.isPrefixOf ("*".toList) line) &&
   !(List.isPrefixOf ("[".toList) line) &&
   !(List.isPrefixOf ("Chapter".toList) line) &&
   !(bareChapterHeading line) &&
   !(pyIsUpper line) &&
   containsTok ("Nephi".toList) line) ||
  containsTok ("Lord".toList) line ||
  containsTok ("came to pass".toList) line

/-- The fallback verse pass of `load_mormon_corpus` (corpus.py lines 34-46). -/
def parseLoose (lines : List Str) : List Str :=
  lines.filterMap (fun l =>
    let line := stripChars l
    if looseSelect line then some line else none)

/-- Verse extraction of `load_mormon_corpus`: the primary pattern, falling
back to the loose heuristic when the primary pass matched zero lines. -/
def parseVerses (lines : List Str) : List Str :=
  let vs := parsePrimary lines
  if vs = [] then parseLoose lines else vs

/-! ## corpus.py: chunking -/

/-- The chunk document appended by `load_mormon_corpus` for the accumulated
text `current` under identifier `chunkId`. -/
def mkChunk (chunkId : Nat) (current : Str) : Doc :=
  { title := ("Book of Mormon - Chunk ".toList) ++ (toString chunkId).toList
    content := stripChars current
    chunk_id := some (chunkId : Int)
    source := some ("mormon".toList) }

/-- The chunk-building loop of `load_mormon_corpus` (corpus.py lines 49-82):
greedy accumulation with tail-overlap seeding, parametrized by the
configured `CHUNK_SIZE` (`cs`) and `CHUNK_OVERLAP` (`co`). -/
def createChunksGo (cs co : Nat) (verses : List Str) (current : Str)
    (chunkId : Nat) (acc : List Doc) : List Doc :=
  match verses with
  | [] => if stripChars current ≠ [] then acc ++ [mkChunk chunkId current] else acc
  | v :: rest =>
      if current.length + v.length + 1 > cs ∧ current ≠ [] then
        let seed := if 0 < co ∧ co < current.length
          then (current.drop (current.length - co)) ++ (' ' :: v)
          else v
        createChunksGo cs co rest seed (chunkId + 1) (acc ++ [mkChunk chunkId current])
      else
        let cur2 := if current ≠ [] then current ++ (' ' :: v) else v
        createChunksGo cs co rest cur2 chunkId acc

/-- Chunking a verse list, as `load_mormon_corpus` does starting from an
empty accumulator and chunk id 1. -/
def createChunks (cs co : Nat) (verses : List Str) : List Doc :=
  createChunksGo cs co verses [] 1 []

/-- The built-in default corpus of `get_default_corpus` (corpus.py lines
101-134), verbatim. -/
def get_default_corpus : List Doc :=
  [ { title := ("Legal Risk Assessment - Contract Liability".toList)
      content := ("The current service agreement exposes our organization to significant liability risks due to several deficiencies. First, the contract lacks proper indemnification clauses that would protect us from third-party claims. Second, there are insufficient limitations on consequential damages, potentially exposing us to unlimited liability. The agreement also fails to include adequate force majeure provisions and dispute resolution mechanisms. Legal counsel recommends immediate contract revision to include comprehensive liability protection, capped damages clauses, and clear termination procedures. Without these protections, the organization faces substantial financial and legal exposure.".toList)
      chunk_id := some 1
      source := some ("default".toList) }
  , { title := ("Cybersecurity Policy - Authentication Requirements".toList)
      content := ("All employees must implement multi-factor authentication (2FA) to reduce unauthorized access risks to corporate systems. This security requirement applies to email accounts, cloud storage platforms, financial systems, and any applications containing sensitive data. The IT department has identified that single-factor authentication presents significant vulnerabilities, particularly given the increase in phishing attacks and credential theft. Implementation of 2FA has been shown to prevent 99.9% of automated cyber attacks. Failure to comply with authentication requirements may result in disciplinary action and potential security incidents that could compromise client data and corporate intellectual property.".toList)
      chunk_id := some 2
      source := some ("default".toList) }
  , { title := ("Financial Performance Analysis - Q3 2023".toList)
      content := ("Revenue performance for Q3 2023 shows strong growth of 15% year-over-year, driven primarily by increased client acquisitions and expanded service offerings. However, operational expenses have also increased significantly, particularly in legal and compliance costs due to ongoing litigation matters. Legal expenses alone account for 8% of total operational costs this quarter, representing a 45% increase from the previous year. The litigation involves contract disputes, regulatory compliance issues, and intellectual property claims. While revenue growth remains positive, the company must address escalating legal costs through improved contract management, enhanced compliance procedures, and proactive risk mitigation strategies to maintain profitability.".toList)
      chunk_id := some 3
      source := some ("default".toList) }
  , { title := ("Risk Management Framework - Enterprise Security".toList)
      content := ("The enterprise risk management framework identifies several critical areas requiring immediate attention: cybersecurity threats, regulatory compliance gaps, and operational vulnerabilities. Cybersecurity risks include data breaches, ransomware attacks, and insider threats. The security assessment reveals insufficient monitoring capabilities, outdated encryption protocols, and inadequate incident response procedures. Regulatory compliance risks span multiple jurisdictions with varying data protection requirements, financial reporting standards, and industry-specific regulations. Operational risks include supply chain disruptions, key personnel dependencies, and technology infrastructure failures. Mitigation strategies must address these interconnected risks through comprehensive policies, regular audits, and continuous monitoring systems.".toList)
      chunk_id := some 4
      source := some ("default".toList) }
  , { title := ("Compliance Audit Results - Data Protection".toList)
      content := ("The annual compliance audit reveals several areas of non-compliance with data protection regulations including GDPR, CCPA, and industry-specific privacy requirements. Key findings include inadequate data encryption for customer information, insufficient access controls for sensitive databases, and incomplete data breach notification procedures. The audit also identified gaps in employee training regarding data handling practices and inadequate documentation of data processing activities. Immediate corrective actions required include implementation of enhanced encryption protocols, revision of privacy policies, comprehensive staff training programs, and establishment of a dedicated data protection officer role. Failure to address these compliance gaps could result in significant regulatory penalties and reputational damage.".toList)
      chunk_id := some 5
      source := some ("default".toList) } ]

/-- Python `content.split('\n')`. -/
def pyLines (s : Str) : List Str := List.splitOnP (fun c => decide (c = '\n')) s

/-- `load_mormon_corpus` (corpus.py lines 9-98).  The file read is modelled
by `fileContent`: `none` is the `FileNotFoundError` path (fall back to the
default corpus), `some content` is a successful read.  Parsing, chunking
and the zero-chunk fallback are as in the source. -/
def load_mormon_corpus (cs co : Nat) (fileContent : Option Str) : List Doc :=
  match fileContent with
  | none => get_default_corpus
  | some content =>
      let verses := parseVerses (pyLines content)
      let corpus := createChunks cs co verses
      if corpus = [] then get_default_corpus else corpus

/-! ## claude_client.py: response parsing and fallback -/

/-- Numeric value of an ASCII digit string. -/
def digitsVal (ds : Str) : Rat :=
  ds.foldl (fun acc c => acc * 10 + ((c.toNat - '0'.toNat : Nat) : Rat)) 0

/-- Value of the fractional digit string `ds` (digits after the dot). -/
def fracVal (ds : Str) : Rat := digitsVal ds / ((10 : Rat) ^ ds.length)

/-- Greedy match of the Python regex `[0-9]*\.?[0-9]+` at the start of `s`:
integer digits, an optional dot followed by at least one digit; the regex
backtracks the dot away when no digit follows it.  Returns the numeric
value and the unconsumed remainder. -/
def matchNumber (s : Str) : Option (Rat × Str) :=
  let d1 := s.takeWhile Char.isDigit
  let r1 := s.dropWhile Char.isDigit
  match r1 with
  | '.' :: r2 =>
      let d2 := r2.takeWhile Char.isDigit
      if d2 = [] then
        if d1 = [] then none else some (digitsVal d1, r1)
      else some (digitsVal d1 + fracVal d2, r2.dropWhile Char.isDigit)
  | _ => if d1 = [] then none else some (digitsVal d1, r1)

/-- The left-to-right scan of `re.findall`: at skip count 0 a match is
attempted at the current position; on success its value is collected and
the scan resumes right after the matched span, encoded by skipping the
remaining `consumed - 1` characters of the match (a successful match of
`[0-9]*\.?[0-9]+` always consumes at least one character); on failure the
scan advances one character. -/
def findNumbersGo : Str → Nat → List Rat
  | [], _ => []
  | _ :: rest, Nat.succ n => findNumbersGo rest n
  | c :: rest, 0 =>
      match matchNumber (c :: rest) with
      | some (q, r) => q :: findNumbersGo rest ((c :: rest).length - r.length - 1)
      | none => findNumbersGo rest 0

/-- `re.findall(r'([0-9]*\.?[0-9]+)', s)`: leftmost non-overlapping numeric
matches, scanned left to right. -/
def findNumbers (s : Str) : List Rat := findNumbersGo s 0

/-- A successful attempt of `re.search(r'RELEVANCE_SCORE:\s*([0-9]*\.?[0-9]+)', s)`
anchored at the current position: the literal label, optional whitespace,
then a number. -/
def labeledTail (s : Str) : Option Rat :=
  if List.isPrefixOf ("RELEVANCE_SCORE:".toList) s then
    match matchNumber ((s.drop 16).dropWhile Char.isWhitespace) with
    | some (q, _) => some q
    | none => none
  else none

/-- `re.search(r'RELEVANCE_SCORE:\s*([0-9]*\.?[0-9]+)', s)`: the leftmost
position where the labelled pattern matches. -/
def searchLabeled : Str → Option Rat
  | [] => none
  | c :: rest =>
      match labeledTail (c :: rest) with
      | some q => some q
      | none => searchLabeled rest

/-- `ClaudeClient.analyze_relevance` (claude_client.py lines 14-77).  The
oracle call (prompt construction, network, response assembly) is modelled
by its outcome: `Except.error` is any raised exception, `Except.ok` is the
response text.  Parsing and clamping follow the source. -/
def analyze_relevance (oracle : Except Str Str) : Rat :=
  match oracle with
  | .error _ => 0.5
  | .ok response =>
      let resp := stripChars response
      match searchLabeled resp with
      | some score => max 0 (min 1 score)
      | none =>
          match findNumbers resp with
          | score :: _ => if score ≤ 1 then max 0 score else 0.5
          | [] => 0.5

/-- `ClaudeClient.analyze_relevance_with_context` (claude_client.py lines
79-130).  `ctxOracle` is the outcome of the context-prompt oracle call;
`plainOracle` is the outcome of the separate non-context call performed
when the function degrades to `analyze_relevance`. -/
def analyze_relevance_with_context (contextDocs : List Doc)
    (ctxOracle plainOracle : Except Str Str) : Rat :=
  if contextDocs = [] then analyze_relevance plainOracle
  else
    match ctxOracle with
    | .error _ => analyze_relevance plainOracle
    | .ok response =>
        let resp := stripChars response
        match findNumbers resp with
        | score :: _ => max 0 (min 1 score)
        | [] => 0.5

/-! ## search.py: score fusion -/

/-- `HybridReranker._calculate_enhanced_score` (search.py lines 164-198).
The keyword extractor of `AdvancedTextProcessor.extract_keywords` (NLTK
tokenizer, stopword list and stemmer) is an external collaborator and is
passed in as the abstract set-valued function `kw`; every other step is
translated from the source: `np.max([1.0])` is `max 1 1`, the index score
is divided by it and capped at 1, the length term divides the query word
count by the content word count normalized by the expected chunk size of
50 words, the keyword term divides the keyword overlap by the query
keyword count, and only the upper clamp `min 1` is applied at the end. -/
def calculate_enhanced_score (kw : Str → Finset Str)
    (tfidf_score claude_score semantic_score : Rat) (content query : Str) : Rat :=
  let normalized_tfidf := min 1 (tfidf_score / max 1 (max 1 1))
  let query_words := (pyWords query).length
  let content_words := (pyWords content).length
  let length_term := min 1 ((query_words : Rat) / max 1 ((content_words : Rat) / 50))
  let query_keywords := kw query
  let content_keywords := kw content
  let keyword_overlap := (query_keywords ∩ content_keywords).card
  let keyword_density := (keyword_overlap : Rat) / max 1 ((query_keywords.card : Rat))
  let combined_score :=
    0.2 * normalized_tfidf +
    0.5 * claude_score +
    0.2 * semantic_score +
    0.05 * length_term +
    0.05 * keyword_density
  min 1 combined_score

/-- `HybridReranker._generate_relevance_explanation` (search.py lines 200-210). -/
def relevanceExplanation (title query : Str) (claude_score semantic_score : Rat) : Str :=
  if 0.8 ≤ claude_score ∧ 0.6 ≤ semantic_score then
    ("Highly relevant: \x27".toList) ++ title ++ ("\x27 directly addresses \x27".toList)
      ++ query ++ ("\x27 with strong semantic match.".toList)
  else if 0.6 ≤ claude_score then
    ("Very relevant: \x27".toList) ++ title ++ ("\x27 contains substantial information related to \x27".toList)
      ++ query ++ ("\x27.".toList)
  else if 0.4 ≤ claude_score ∨ 0.4 ≤ semantic_score then
    ("Moderately relevant: \x27".toList) ++ title ++ ("\x27 has some useful information for \x27".toList)
      ++ query ++ ("\x27.".toList)
  else
    ("Limited relevance: \x27".toList) ++ title ++ ("\x27 tangentially related to \x27".toList)
      ++ query ++ ("\x27.".toList)

/-! ## search.py: the search pipeline -/

/-- One result dictionary built by `HybridReranker.search`; the metadata
keys `corpus_index`, `chunk_id` and `source` are added only by the
metadata loop (search.py lines 100-109), hence `Option`. -/
structure SearchResult where
  title : Str
  content : Str
  tfidf_score : Rat
  claude_score : Rat
  semantic_score : Rat
  combined_score : Rat
  explanation : Str
  corpus_index : Option Nat
  chunk_id : Option Int
  source : Option Str
deriving DecidableEq

/-- The external collaborators of `HybridReranker.search`, consumed as
black boxes: `indexSearch` is the FAISS `IndexFlatIP.search` call on the
embedded expanded query (one `(score, index)` row per retrieved
candidate); `claude` is `analyze_relevance_with_context` on the candidate
content, the raw query and the chosen context documents; `semantic` is
`EmbeddingManager.get_semantic_similarity`; `kw` is
`AdvancedTextProcessor.extract_keywords`; `expand` is
`AdvancedTextProcessor.expand_query`. -/
structure SearchEnv where
  indexSearch : Str → Nat → List (Rat × Int)
  claude : Str → Str → List Doc → Rat
  semantic : Str → Str → Rat
  kw : Str → Finset Str
  expand : Str → Str

/-- A retrieved candidate (search.py lines 51-60): the document, its raw
inner-product score, and the raw FAISS index value. -/
structure Retrieved where
  doc : Doc
  score : Rat
  idx : Int
deriving DecidableEq

/-- Python list indexing `corpus[idx]` with negative-index wraparound. -/
def pyIndex (corpus : List Doc) (idx : Int) : Option Doc :=
  if 0 ≤ idx then corpus.get? idx.toNat else corpus.get? (idx + corpus.length).toNat

/-- The retrieval stage of `HybridReranker.search` (search.py lines 46-60):
ask the index for `min(k*2, len(corpus))` rows and keep every row whose
index passes the `idx < len(self.corpus)` guard and addresses a document. -/
def retrievedResults (env : SearchEnv) (corpus : List Doc) (query : Str) (k : Nat) :
    List Retrieved :=
  let expanded := env.expand query
  let retrieve_k := min (k * 2) corpus.length
  (env.indexSearch expanded retrieve_k).filterMap (fun row =>
    if row.2 < (corpus.length : Int) then
      (pyIndex corpus row.2).map (fun d => { doc := d, score := row.1, idx := row.2 })
    else none)

/-- The scoring stage of `HybridReranker.search` (search.py lines 62-94):
for each candidate, oracle score with up to two other candidates as
context, semantic similarity, fused score and explanation. -/
def enhancedResults (env : SearchEnv) (corpus : List Doc) (query : Str) (k : Nat) :
    List SearchResult :=
  let retrieved := retrievedResults env corpus query k
  retrieved.map (fun item =>
    let doc := item.doc
    let tfidf_score := item.score
    let other_docs := ((retrieved.filter (fun r => decide (r.idx ≠ item.idx))).map
      (fun r => r.doc)).take 2
    let claude_score := env.claude doc.content query other_docs
    let semantic_score := env.semantic doc.content query
    let combined_score :=
      calculate_enhanced_score env.kw tfidf_score claude_score semantic_score doc.content query
    { title := doc.title
      content := doc.content
      tfidf_score := tfidf_score
      claude_score := claude_score
      semantic_score := semantic_score
      combined_score := combined_score
      explanation := relevanceExplanation doc.title query claude_score semantic_score
      corpus_index := none
      chunk_id := none
      source := none })

/-- The comparison of `enhanced_results.sort(key=..combined_score, reverse=True)`:
a stable sort placing higher fused scores first. -/
def descCombined (a b : SearchResult) : Bool :=
  decide (b.combined_score ≤ a.combined_score)

/-- The sort key of the final `final_results.sort(key=lambda x: x.get("chunk_id", 999))`. -/
def chunkKey (r : SearchResult) : Int := r.chunk_id.getD 999

/-- The comparison of the final chunk-order sort. -/
def ascChunk (a b : SearchResult) : Bool := decide (chunkKey a ≤ chunkKey b)

/-- The metadata loop body of `HybridReranker.search` (search.py lines
100-109): find the first corpus document with the same title and content
and copy its position, chunk id (defaulting to position + 1) and source
(defaulting to "unknown") onto the result. -/
def annotate (corpus : List Doc) (res : SearchResult) : SearchResult :=
  if corpus.length > 0 then
    match List.findIdx?
        (fun d => decide (d.title = res.title) && decide (d.content = res.content)) corpus with
    | some i =>
        match corpus.get? i with
        | some d =>
            { res with
              corpus_index := some i
              chunk_id := some (d.chunk_id.getD ((i : Int) + 1))
              source := some (d.source.getD ("unknown".toList)) }
        | none => res
    | none => res
  else res

/-- The candidates of `HybridReranker.search` after the descending fused-score
sort and the metadata loop (search.py lines 96-109). -/
def rankedResults (env : SearchEnv) (corpus : List Doc) (query : Str) (k : Nat) :
    List SearchResult :=
  ((enhancedResults env corpus query k).mergeSort descCombined).map (annotate corpus)

/-- The truncation `final_results = enhanced_results[:k]` (search.py line 112). -/
def topKResults (env : SearchEnv) (corpus : List Doc) (query : Str) (k : Nat) :
    List SearchResult :=
  (rankedResults env corpus query k).take k

/-- `HybridReranker.search` (search.py lines 38-117): retrieve, score, sort
by descending fused score, annotate metadata, truncate to `k`, then re-sort
the truncated list by ascending chunk id. -/
def search (env : SearchEnv) (corpus : List Doc) (query : Str) (k : Nat) :
    List SearchResult :=
  (topKResults env corpus query k).mergeSort ascChunk

/-! ## search.py: chunk context expansion -/

/-- One context entry built by `HybridReranker.get_chunk_context`. -/
structure ContextChunk where
  chunk_id : Int
  title : Str
  content : Str
  distance : Int
deriving DecidableEq

/-- The content preview of `get_chunk_context` (search.py line 134):
truncate to 200 characters and append the marker when longer. -/
def previewContent (content : Str) : Str :=
  if 200 < content.length then content.take 200 ++ ("...".toList) else content

/-- The comparison of `context_chunks.sort(key=lambda x: x["chunk_id"])`. -/
def ascCtxChunk (a b : ContextChunk) : Bool := decide (a.chunk_id ≤ b.chunk_id)

/-- `HybridReranker.get_chunk_context` (search.py lines 119-140): empty for
any non-"mormon" source; otherwise every corpus document with source
"mormon" and a chunk id within `context_size` of the target, previewed,
annotated with its absolute distance and sorted by ascending chunk id. -/
def get_chunk_context (corpus : List Doc) (chunk_id : Int) (source : Str)
    (context_size : Int) : List ContextChunk :=
  if source ≠ "mormon".toList then []
  else
    let context_chunks := corpus.filterMap (fun d =>
      match d.chunk_id with
      | some doc_chunk_id =>
          if d.source = some ("mormon".toList) ∧ |doc_chunk_id - chunk_id| ≤ context_size then
            some { chunk_id := doc_chunk_id
                   title := d.title
                   content := previewContent d.content
                   distance := |doc_chunk_id - chunk_id| }
          else none
      | none => none)
    context_chunks.mergeSort ascCtxChunk

/-- The result dictionary of `HybridReranker.search_with_context`.  The
`include_context=False` branch of the source returns a dictionary without
the "has_sequential_content" key, modelled as `none`. -/
structure ContextResult where
  results : List SearchResult
  context : List (Int × List ContextChunk)
  has_sequential_content : Option Bool
deriving DecidableEq

/-- Python dict assignment `context_info[chunk_id] = value` on an
insertion-ordered dictionary modelled as an association list. -/
def dictInsert (m : List (Int × List ContextChunk)) (key : Int)
    (v : List ContextChunk) : List (Int × List ContextChunk) :=
  if m.any (fun p => decide (p.1 = key)) then
    m.map (fun p => if p.1 = key then (key, v) else p)
  else m ++ [(key, v)]

/-- `HybridReranker.search_with_context` (search.py lines 142-162).  With
`include_context=False` the source returns `{"results": .., "context": {}}`
and no "has_sequential_content" key; otherwise it attaches a context
window (radius 2, the default argument) for every result whose source is
"mormon" and whose chunk id is truthy, and reports whether any result came
from the "mormon" source. -/
def search_with_context (env : SearchEnv) (corpus : List Doc) (query : Str)
    (k : Nat) (include_context : Bool) : ContextResult :=
  let results := search env corpus query k
  if include_context = false then
    { results := results, context := [], has_sequential_content := none }
  else
    let context_info := results.foldl (fun m r =>
      match r.chunk_id with
      | some cid =>
          if r.source = some ("mormon".toList) ∧ cid ≠ 0 then
            dictInsert m cid (get_chunk_context corpus cid ("mormon".toList) 2)
          else m
      | none => m) []
    { results := results
      context := context_info
      has_sequential_content :=
        some (results.any (fun r => decide (r.source = some ("mormon".toList)))) }

/-- The longest verse length, the tolerance of the chunking invariant. -/
def maxVerseLen (verses : List Str) : Nat :=
  verses.foldr (fun v m => max v.length m) 0

/-- The chunk-id projection of a corpus, in source order. -/
def docIds (l : List Doc) : List (Option Int) := l.map (fun d => d.chunk_id)

/-- A minimal concrete environment for closed runs of the pipeline: the
index returns no rows and every abstract scorer is constant. -/
def trivialEnv : SearchEnv :=
  { indexSearch := fun _ _ => []
    claude := fun _ _ _ => 0
    semantic := fun _ _ => 0
    kw := fun _ => ∅
    expand := fun q => q }

/-- A ten-chunk narrative corpus with chunk ids 1..10, for the end-to-end
context-window scenario. -/
def demoNarrativeCorpus : List Doc :=
  (List.range' 1 10).map (fun n =>
    { title := ("Chunk ".toList) ++ (toString n).toList
      content := ("verse text".toList)
      chunk_id := some ((n : Nat) : Int)
      source := some ("mormon".toList) })

/-- A small concrete environment whose index returns up to two rows, for
closed instantiations of the search pipeline. -/
def demoEnv : SearchEnv :=
  { indexSearch := fun _ n => ([((1 : Rat), (0 : Int)), ((0 : Rat), (1 : Int))]).take n
    claude := fun _ _ _ => 0.5
    semantic := fun _ _ => 0
    kw := fun _ => ∅
    expand := fun q => q }

/-! ## Theorems -/

/-- Claim C3: the spec (and the layout of the source condition) intend the
loose fallback filters conjunctively, but Python operator precedence makes
the length and markup filters apply only to the `Nephi` branch.  On input
consisting of the single line "and the Lord said unto me" (25 characters,
no primary-pattern match) the fallback selects the line even though its
stripped length is not greater than 50: the code contradicts the stated
conjunctive filter. -/
theorem loose_fallback_selects_short_line :
    parsePrimary [("and the Lord said unto me".toList)] = [] ∧
    looseSelect ("and the Lord said unto me".toList) = true ∧
    parseVerses [("and the Lord said unto me".toList)]
      = [("and the Lord said unto me".toList)] ∧
    ("and the Lord said unto me".toList).length ≤ 50 := by decide

/-- Claim C4: `analyze_relevance` returns exactly 0.5 on every raised
oracle error (exceptions are modelled by `Except.error`, so non-propagation
is total-function behaviour), and every score it returns lies in [0, 1]. -/
theorem analyze_relevance_fallback_and_bounds :
    (∀ e : Str, analyze_relevance (Except.error e) = 0.5) ∧
    (∀ oracle : Except Str Str,
      0 ≤ analyze_relevance oracle ∧ analyze_relevance oracle ≤ 1) := by
  constructor
  · intro e; rfl
  · intro oracle
    cases oracle with
    | error e => simp only [analyze_relevance]; norm_num
    | ok response =>
        simp only [analyze_relevance]
        cases hsl : searchLabeled (stripChars response) with
        | some score =>
            exact ⟨le_max_left 0 _, max_le (by norm_num) (min_le_left _ _)⟩
        | none =>
            cases hfn : findNumbers (stripChars response) with
            | nil => norm_num
            | cons score rest =>
                by_cases hle : score ≤ 1
                · simp only [if_pos hle]
                  exact ⟨le_max_left 0 _, max_le (by norm_num) hle⟩
                · simp only [if_neg hle]; norm_num

/-- Claim C10: `get_chunk_context` returns the empty list for every source
argument other than "mormon", whatever the corpus, target chunk id and
radius. -/
theorem get_chunk_context_requires_mormon_source :
    ∀ (corpus : List Doc) (chunk_id : Int) (source : Str) (context_size : Int),
      source ≠ ("mormon".toList) →
      get_chunk_context corpus chunk_id source context_size = [] := by
  intro corpus cid src csize h
  unfold get_chunk_context
  rw [if_pos h]

/-- Witness for claim C10, at the default corpus and source "default". -/
theorem get_chunk_context_requires_mormon_source_witness :
    ("default".toList) ≠ ("mormon".toList) ∧
    get_chunk_context get_default_corpus 3 ("default".toList) 2 = [] :=
  ⟨by decide,
   get_chunk_context_requires_mormon_source get_default_corpus 3 ("default".toList) 2
     (by decide)⟩

/-- Claim C5 (amended): with a non-empty context-document list,
`analyze_relevance_with_context` degrades to the non-context variant
exactly when the context oracle call raises; it then returns
`analyze_relevance`'s result for the separate non-context call. -/
theorem ctx_error_degrades :
    ∀ (contextDocs : List Doc) (e : Str) (plainOracle : Except Str Str),
      contextDocs ≠ [] →
      analyze_relevance_with_context contextDocs (Except.error e) plainOracle
        = analyze_relevance plainOracle := by
  intro docs e plain h
  unfold analyze_relevance_with_context
  rw [if_neg h]

/-- Witness for claim C5's amended theorem at a one-document context list. -/
theorem ctx_error_degrades_witness :
    ([({ title := [], content := [], chunk_id := none, source := none } : Doc)] ≠ []) ∧
    analyze_relevance_with_context
      [({ title := [], content := [], chunk_id := none, source := none } : Doc)]
      (Except.error ("timeout".toList)) (Except.error ("timeout".toList))
      = analyze_relevance (Except.error ("timeout".toList)) :=
  ⟨by decide,
   ctx_error_degrades
     [({ title := [], content := [], chunk_id := none, source := none } : Doc)]
     ("timeout".toList) (Except.error ("timeout".toList)) (by decide)⟩

/-- Counterexample for claim C5: with a non-empty context list, an
unparseable (number-free) context-oracle response — a scoring failure that
the cited spec text says should degrade to the non-context variant — makes
`analyze_relevance_with_context` return the neutral 0.5 instead of the
non-context result (here 0.9). -/
theorem ctx_unparseable_returns_neutral :
    analyze_relevance_with_context
        [({ title := [], content := [], chunk_id := none, source := none } : Doc)]
        (Except.ok ("no score given".toList))
        (Except.ok ("RELEVANCE_SCORE: 0.9".toList)) = 0.5 ∧
    analyze_relevance (Except.ok ("RELEVANCE_SCORE: 0.9".toList)) = 0.9 ∧
    (0.5 : Rat) ≠ 0.9 := by
  refine ⟨rfl, ?_, by norm_num⟩
  have hstrip : stripChars ("RELEVANCE_SCORE: 0.9".toList)
      = ("RELEVANCE_SCORE: 0.9".toList) := by decide
  have hsl : searchLabeled ("RELEVANCE_SCORE: 0.9".toList)
      = some (digitsVal ['0'] + fracVal ['9']) := rfl
  have h0 : (('0'.toNat - '0'.toNat : Nat) : Rat) = 0 := by norm_num
  have h9n : ('9'.toNat - '0'.toNat : Nat) = 9 := by decide
  have h9 : (('9'.toNat - '0'.toNat : Nat) : Rat) = 9 := by rw [h9n]; norm_num
  have hval : digitsVal ['0'] + fracVal ['9'] = (0.9 : Rat) := by
    simp only [digitsVal, fracVal, List.foldl_cons, List.foldl_nil, List.length_cons,
      List.length_nil, h0, h9]
    norm_num
  simp only [analyze_relevance, hstrip, hsl]
  rw [hval]
  rw [min_eq_right (by norm_num : (0.9 : Rat) ≤ 1), max_eq_right (by norm_num : (0 : Rat) ≤ 0.9)]

/-- Counterexample for claim C1: the fusion only applies the upper clamp
`min 1`; a negative lexical index score (inner products after latent
projection may be negative) is passed through unclamped and drives the
fused score below 0, here to -1.7. -/
theorem combined_score_can_be_negative :
    calculate_enhanced_score (fun _ => (∅ : Finset Str)) (-10) 0.5 0
      ("a".toList) ("b".toList) < 0 := by
  have hqw : (pyWords ("b".toList)).length = 1 := by decide
  have hcw : (pyWords ("a".toList)).length = 1 := by decide
  simp only [calculate_enhanced_score, hqw, hcw, Finset.empty_inter, Finset.card_empty]
  norm_num [min_def, max_def]

/-- Claim C1 (amended): the fused score is always at most 1, and it lies in
[0, 1] whenever the component scores are nonnegative (as the oracle score
and the Jaccard semantic score are by construction); an index score above
1 is clamped to 1 before weighting, but a negative index score is not
clamped, so only nonnegativity of the components gives the lower bound. -/
theorem combined_score_bounds :
    ∀ (kw : Str → Finset Str) (tfidf claude semantic : Rat) (content query : Str),
      calculate_enhanced_score kw tfidf claude semantic content query ≤ 1 ∧
      (0 ≤ tfidf → 0 ≤ claude → 0 ≤ semantic →
        0 ≤ calculate_enhanced_score kw tfidf claude semantic content query) := by
  intro kw t c s content query
  constructor
  · unfold calculate_enhanced_score
    exact min_le_left _ _
  · intro ht hc hs
    simp only [calculate_enhanced_score]
    have hden1 : (0 : Rat) < max 1 (max 1 1) := lt_of_lt_of_le zero_lt_one (le_max_left _ _)
    have h1 : (0 : Rat) ≤ min 1 (t / max 1 (max 1 1)) :=
      le_min zero_le_one (div_nonneg ht hden1.le)
    have h2 : (0 : Rat) ≤ ((pyWords query).length : Rat) := by positivity
    have hden2 : (0 : Rat) ≤ max 1 (((pyWords content).length : Rat) / 50) :=
      le_trans zero_le_one (le_max_left _ _)
    have h3 : (0 : Rat) ≤ min 1 (((pyWords query).length : Rat)
        / max 1 (((pyWords content).length : Rat) / 50)) :=
      le_min zero_le_one (div_nonneg h2 hden2)
    have h4 : (0 : Rat) ≤ (((kw query ∩ kw content).card : Nat) : Rat)
        / max 1 (((kw query).card : Nat) : Rat) :=
      div_nonneg (by positivity) (le_trans zero_le_one (le_max_left _ _))
    refine le_min zero_le_one ?_
    exact add_nonneg (add_nonneg (add_nonneg (add_nonneg
      (mul_nonneg (by norm_num) h1) (mul_nonneg (by norm_num) hc))
      (mul_nonneg (by norm_num) hs)) (mul_nonneg (by norm_num) h3))
      (mul_nonneg (by norm_num) h4)

/-- Witness for claim C1's amended theorem at concrete nonnegative scores. -/
theorem combined_score_bounds_witness :
    (0 ≤ (1 : Rat)) ∧ (0 ≤ (0.5 : Rat)) ∧ (0 ≤ (0 : Rat)) ∧
    calculate_enhanced_score (fun _ => (∅ : Finset Str)) 1 0.5 0
      ("a".toList) ("b".toList) ≤ 1 ∧
    0 ≤ calculate_enhanced_score (fun _ => (∅ : Finset Str)) 1 0.5 0
      ("a".toList) ("b".toList) :=
  ⟨by norm_num, by norm_num, le_refl 0,
   (combined_score_bounds (fun _ => (∅ : Finset Str)) 1 0.5 0 ("a".toList) ("b".toList)).1,
   (combined_score_bounds (fun _ => (∅ : Finset Str)) 1 0.5 0 ("a".toList) ("b".toList)).2
     (by norm_num) (by norm_num) (le_refl 0)⟩

/-- Stripping never lengthens a string. -/
theorem stripChars_length_le (s : Str) : (stripChars s).length ≤ s.length := by
  unfold stripChars
  have h1 : ∀ l : Str, (l.dropWhile Char.isWhitespace).length ≤ l.length :=
    fun l => (List.dropWhile_sublist _).length_le
  calc ((s.dropWhile Char.isWhitespace).reverse.dropWhile Char.isWhitespace).reverse.length
      = ((s.dropWhile Char.isWhitespace).reverse.dropWhile Char.isWhitespace).length := by
        rw [List.length_reverse]
    _ ≤ (s.dropWhile Char.isWhitespace).reverse.length := h1 _
    _ = (s.dropWhile Char.isWhitespace).length := by rw [List.length_reverse]
    _ ≤ s.length := h1 s

/-- Stripping the empty string gives the empty string, contrapositively:
a chunk with non-empty stripped content came from a non-empty accumulator. -/
theorem stripChars_ne_nil_of_ne {s : Str} (h : stripChars s ≠ []) : s ≠ [] := by
  intro he
  subst he
  exact h rfl

/-- Every verse is bounded by the maximal verse length. -/
theorem length_le_maxVerseLen : ∀ {v : Str} {verses : List Str},
    v ∈ verses → v.length ≤ maxVerseLen verses := by
  intro v verses
  induction verses with
  | nil => intro h; cases h
  | cons w rest ih =>
      intro h
      rcases List.mem_cons.mp h with h1 | h2
      · subst h1; exact le_max_left _ _
      · exact le_trans (ih h2) (le_max_right _ _)

/-- Invariant of the chunking loop: if the overlap is smaller than the
chunk size, every verse is at most `L` long, the accumulator text is at
most `cs + L` long and all previously closed chunks obey the bound, then
every chunk the loop produces has content length at most `cs + L`. -/
theorem createChunksGo_content_le (cs co : Nat) (hco : co < cs) (L : Nat) :
    ∀ (verses : List Str) (current : Str) (cid : Nat) (acc : List Doc),
      (∀ v ∈ verses, v.length ≤ L) →
      current.length ≤ cs + L →
      (∀ d ∈ acc, d.content.length ≤ cs + L) →
      ∀ d ∈ createChunksGo cs co verses current cid acc, d.content.length ≤ cs + L := by
  intro verses
  induction verses with
  | nil =>
      intro current cid acc _ hcur hacc d hd
      simp only [createChunksGo] at hd
      by_cases h : stripChars current ≠ []
      · rw [if_pos h] at hd
        rcases List.mem_append.mp hd with h1 | h2
        · exact hacc d h1
        · have : d = mkChunk cid current := by simpa using h2
          subst this
          exact le_trans (stripChars_length_le current) hcur
      · rw [if_neg h] at hd
        exact hacc d hd
  | cons v rest ih =>
      intro current cid acc hv hcur hacc d hd
      simp only [createChunksGo] at hd
      by_cases hclose : current.length + v.length + 1 > cs ∧ current ≠ []
      · rw [if_pos hclose] at hd
        refine ih _ (cid + 1) (acc ++ [mkChunk cid current]) ?_ ?_ ?_ d hd
        · intro w hw; exact hv w (List.mem_cons_of_mem _ hw)
        · by_cases hov : 0 < co ∧ co < current.length
          · rw [if_pos hov]
            have hdrop : (current.drop (current.length - co)).length = co := by
              rw [List.length_drop]; omega
            have hvlen : v.length ≤ L := hv v (List.mem_cons_self _ _)
            simp only [List.length_append, hdrop, List.length_cons]
            omega
          · rw [if_neg hov]
            exact le_trans (hv v (List.mem_cons_self _ _)) (Nat.le_add_left _ _)
        · intro e he
          rcases List.mem_append.mp he with h1 | h2
          · exact hacc e h1
          · have : e = mkChunk cid current := by simpa using h2
            subst this
            exact le_trans (stripChars_length_le current) hcur
      · rw [if_neg hclose] at hd
        refine ih _ cid acc ?_ ?_ hacc d hd
        · intro w hw; exact hv w (List.mem_cons_of_mem _ hw)
        · by_cases hne : current ≠ []
          · rw [if_pos hne]
            have hnot : ¬ (current.length + v.length + 1 > cs) := fun hgt => hclose ⟨hgt, hne⟩
            simp only [List.length_append, List.length_cons]
            omega
          · rw [if_neg hne]
            push_neg at hne
            subst hne
            simp only [List.length_nil] at hcur ⊢
            exact le_trans (hv v (List.mem_cons_self _ _)) (Nat.le_add_left _ _)

/-- Invariant of the chunking loop: each produced chunk consumes at least
one verse, counted as a bound on the number of chunks. -/
theorem createChunksGo_count_le (cs co : Nat) :
    ∀ (verses : List Str) (current : Str) (cid : Nat) (acc : List Doc),
      (createChunksGo cs co verses current cid acc).length
        ≤ acc.length + verses.length + (if current = [] then 0 else 1) := by
  intro verses
  induction verses with
  | nil =>
      intro current cid acc
      simp only [createChunksGo]
      by_cases h : stripChars current ≠ []
      · rw [if_pos h]
        have : current ≠ [] := stripChars_ne_nil_of_ne h
        rw [if_neg this]
        simp
      · rw [if_neg h]
        simp only [List.length_nil]
        split <;> omega
  | cons v rest ih =>
      intro current cid acc
      have hstep : ∀ (s : Str) (n : Nat) (ac : List Doc),
          (createChunksGo cs co rest s n ac).length ≤ ac.length + rest.length + 1 := by
        intro s n ac
        refine le_trans (ih s n ac) ?_
        split <;> omega
      simp only [createChunksGo]
      by_cases hclose : current.length + v.length + 1 > cs ∧ current ≠ []
      · rw [if_pos hclose, if_neg hclose.2]
        refine le_trans (hstep _ (cid + 1) (acc ++ [mkChunk cid current])) ?_
        simp only [List.length_append, List.length_cons, List.length_nil]
        omega
      · rw [if_neg hclose]
        refine le_trans (hstep _ cid acc) ?_
        simp only [List.length_cons]
        omega

/-- Claim C6: with the configured overlap strictly below the configured
chunk size, every chunk `createChunks` produces (the last one included)
has content length at most the chunk size plus the longest verse length,
and no chunk is produced from zero verses: the loop emits at most one
chunk per consumed verse. -/
theorem createChunks_size_invariant :
    ∀ (cs co : Nat) (verses : List Str), co < cs →
      (∀ d ∈ createChunks cs co verses, d.content.length ≤ cs + maxVerseLen verses) ∧
      (createChunks cs co verses).length ≤ verses.length := by
  intro cs co verses hco
  constructor
  · intro d hd
    refine createChunksGo_content_le cs co hco (maxVerseLen verses) verses [] 1 [] ?_ ?_ ?_ d hd
    · intro v hv; exact length_le_maxVerseLen hv
    · simp
    · intro e he; cases he
  · have h := createChunksGo_count_le cs co verses [] 1 []
    simpa using h

/-- Witness for claim C6 at the configured sizes 500/50 and two verses. -/
theorem createChunks_size_invariant_witness :
    (50 < 500) ∧
    ((∀ d ∈ createChunks 500 50 [("First verse text".toList), ("Second verse text".toList)],
        d.content.length ≤ 500 + maxVerseLen [("First verse text".toList), ("Second verse text".toList)]) ∧
     (createChunks 500 50 [("First verse text".toList), ("Second verse text".toList)]).length
        ≤ ([("First verse text".toList), ("Second verse text".toList)] : List Str).length) :=
  ⟨by decide,
   createChunks_size_invariant 500 50
     [("First verse text".toList), ("Second verse text".toList)] (by decide)⟩

/-- The chunking loop assigns consecutive chunk ids starting from the
running counter: the ids of the produced corpus are the accumulator's ids
followed by a consecutive run starting at `cid`. -/
theorem createChunksGo_ids (cs co : Nat) :
    ∀ (verses : List Str) (current : Str) (cid : Nat) (acc : List Doc),
      ∃ m, docIds (createChunksGo cs co verses current cid acc)
        = docIds acc ++ (List.range' cid m).map (fun n => some ((n : Nat) : Int)) := by
  intro verses
  induction verses with
  | nil =>
      intro current cid acc
      simp only [createChunksGo]
      by_cases h : stripChars current ≠ []
      · rw [if_pos h]
        refine ⟨1, ?_⟩
        simp [docIds, mkChunk, List.range'_succ]
      · rw [if_neg h]
        exact ⟨0, by simp⟩
  | cons v rest ih =>
      intro current cid acc
      simp only [createChunksGo]
      by_cases hclose : current.length + v.length + 1 > cs ∧ current ≠ []
      · rw [if_pos hclose]
        obtain ⟨m, hm⟩ := ih
          (if 0 < co ∧ co < current.length
            then (current.drop (current.length - co)) ++ (' ' :: v) else v)
          (cid + 1) (acc ++ [mkChunk cid current])
        refine ⟨m + 1, ?_⟩
        rw [hm, List.range'_succ]
        simp [docIds, mkChunk]
      · rw [if_neg hclose]
        exact ih _ cid acc

/-- Claim C9: for every corpus the loader returns — any chunked structured
corpus and the default fallback corpus — the chunk ids read in source
order are exactly the consecutive run 1, 2, ..., n: strictly increasing,
unique and 1-based. -/
theorem corpus_chunk_ids_sequential :
    (∀ (cs co : Nat) (fileContent : Option Str),
      docIds (load_mormon_corpus cs co fileContent)
        = (List.range' 1 (load_mormon_corpus cs co fileContent).length).map
            (fun n => some ((n : Nat) : Int))) ∧
    docIds get_default_corpus
      = (List.range' 1 get_default_corpus.length).map (fun n => some ((n : Nat) : Int)) := by
  have hdef : docIds get_default_corpus
      = (List.range' 1 get_default_corpus.length).map (fun n => some ((n : Nat) : Int)) := by
    decide
  refine ⟨?_, hdef⟩
  intro cs co fileContent
  cases fileContent with
  | none => exact hdef
  | some content =>
      simp only [load_mormon_corpus]
      by_cases hc : createChunks cs co (parseVerses (pyLines content)) = []
      · rw [if_pos hc]
        exact hdef
      · rw [if_neg hc]
        obtain ⟨m, hm⟩ :=
          createChunksGo_ids cs co (parseVerses (pyLines content)) [] 1 []
        have hlen : (createChunks cs co (parseVerses (pyLines content))).length = m := by
          have := congrArg List.length hm
          simpa [docIds, List.length_range'] using this
        rw [hlen]
        simpa [docIds] using hm

/-- Claim C7: on a corpus whose documents all carry the "mormon" source tag
and a chunk id (exactly what the chunked loader produces, and the only
corpus the caller passes with source "mormon"), `get_chunk_context`
returns exactly the documents whose chunk id lies within the radius of the
target, sorted ascending by chunk id, each previewed via `previewContent`
and annotated with distance `|chunk_id - target|`. -/
theorem get_chunk_context_window_exact :
    ∀ (corpus : List Doc) (target radius : Int),
      (∀ d ∈ corpus, d.source = some ("mormon".toList) ∧ d.chunk_id.isSome) →
      (List.Pairwise (fun a b : ContextChunk => a.chunk_id ≤ b.chunk_id)
          (get_chunk_context corpus target ("mormon".toList) radius) ∧
       (∀ x : ContextChunk,
          x ∈ get_chunk_context corpus target ("mormon".toList) radius ↔
          ∃ d ∈ corpus, ∃ cid : Int, d.chunk_id = some cid ∧ |cid - target| ≤ radius ∧
            x = { chunk_id := cid, title := d.title, content := previewContent d.content,
                  distance := |cid - target| }) ∧
       (∀ x ∈ get_chunk_context corpus target ("mormon".toList) radius,
          x.distance = |x.chunk_id - target|)) := by
  intro corpus target radius hall
  have hmm : ¬ (("mormon".toList : Str) ≠ "mormon".toList) := fun hh => hh rfl
  have htrans : ∀ (a b c : ContextChunk),
      ascCtxChunk a b = true → ascCtxChunk b c = true → ascCtxChunk a c = true := by
    intro a b c hab hbc
    simp only [ascCtxChunk, decide_eq_true_eq] at hab hbc ⊢
    exact le_trans hab hbc
  have htotal : ∀ (a b : ContextChunk), (ascCtxChunk a b || ascCtxChunk b a) = true := by
    intro a b
    simp only [ascCtxChunk, Bool.or_eq_true, decide_eq_true_eq]
    exact le_total _ _
  simp only [get_chunk_context]
  rw [if_neg hmm]
  have hchar : ∀ x : ContextChunk,
      (x ∈ (corpus.filterMap (fun d =>
        match d.chunk_id with
        | some doc_chunk_id =>
            if d.source = some ("mormon".toList) ∧ |doc_chunk_id - target| ≤ radius then
              some { chunk_id := doc_chunk_id, title := d.title,
                     content := previewContent d.content,
                     distance := |doc_chunk_id - target| }
            else none
        | none => none)).mergeSort ascCtxChunk) ↔
      ∃ d ∈ corpus, ∃ cid : Int, d.chunk_id = some cid ∧ |cid - target| ≤ radius ∧
        x = { chunk_id := cid, title := d.title, content := previewContent d.content,
              distance := |cid - target| } := by
    intro x
    rw [(List.mergeSort_perm _ ascCtxChunk).mem_iff, List.mem_filterMap]
    constructor
    · rintro ⟨d, hd, hfd⟩
      cases hcid : d.chunk_id with
      | none => rw [hcid] at hfd; exact absurd hfd (by simp)
      | some cid =>
          rw [hcid] at hfd
          dsimp only at hfd
          by_cases hcond : d.source = some ("mormon".toList) ∧ |cid - target| ≤ radius
          · rw [if_pos hcond] at hfd
            exact ⟨d, hd, cid, hcid, hcond.2, (Option.some.inj hfd).symm⟩
          · rw [if_neg hcond] at hfd
            exact absurd hfd (by simp)
    · rintro ⟨d, hd, cid, hcid, hdist, hx⟩
      refine ⟨d, hd, ?_⟩
      rw [hcid]
      dsimp only
      rw [if_pos ⟨(hall d hd).1, hdist⟩, hx]
  refine ⟨?_, hchar, ?_⟩
  · refine List.Pairwise.imp ?_ (List.sorted_mergeSort htrans htotal _)
    intro a b hab
    exact of_decide_eq_true hab
  · intro x hx
    obtain ⟨d, hd, cid, hcid, hdist, hxeq⟩ := (hchar x).mp hx
    subst hxeq
    rfl

/-- Witness for claim C7: the end-to-end scenario on chunk ids 1..10 with
target 5 and radius 2 — the window is exactly the chunks 3..7 in ascending
order with distances 2,1,0,1,2. -/
theorem get_chunk_context_window_exact_witness :
    (∀ d ∈ demoNarrativeCorpus, d.source = some ("mormon".toList) ∧ d.chunk_id.isSome) ∧
    List.Pairwise (fun a b : ContextChunk => a.chunk_id ≤ b.chunk_id)
      (get_chunk_context demoNarrativeCorpus 5 ("mormon".toList) 2) ∧
    (get_chunk_context demoNarrativeCorpus 5 ("mormon".toList) 2).map
      (fun c => c.chunk_id) = [3, 4, 5, 6, 7] ∧
    (get_chunk_context demoNarrativeCorpus 5 ("mormon".toList) 2).map
      (fun c => c.distance) = [2, 1, 0, 1, 2] := by
  have hmm : ¬ (("mormon".toList : Str) ≠ "mormon".toList) := fun hh => hh rfl
  refine ⟨by decide, (get_chunk_context_window_exact demoNarrativeCorpus 5 2 (by decide)).1,
    ?_, ?_⟩
  · simp only [get_chunk_context]
    rw [if_neg hmm, List.mergeSort_of_sorted (by decide)]
    decide
  · simp only [get_chunk_context]
    rw [if_neg hmm, List.mergeSort_of_sorted (by decide)]
    decide

/-- Membership after a dictionary insertion: an entry is either untouched
from the old dictionary or the inserted binding. -/
theorem mem_dictInsert {m : List (Int × List ContextChunk)} {key : Int}
    {v : List ContextChunk} {p : Int × List ContextChunk}
    (h : p ∈ dictInsert m key v) : p ∈ m ∨ p = (key, v) := by
  unfold dictInsert at h
  by_cases hk : m.any (fun q => decide (q.1 = key))
  · rw [if_pos hk] at h
    rcases List.mem_map.mp h with ⟨q, hq, hqe⟩
    by_cases hq1 : q.1 = key
    · right
      rw [← hqe, if_pos hq1]
    · left
      rw [← hqe, if_neg hq1]
      exact hq
  · rw [if_neg hk] at h
    rcases List.mem_append.mp h with h1 | h2
    · left; exact h1
    · right; simpa using h2

/-- Every entry the context fold of `search_with_context` produces comes
from a result with the "mormon" source and a non-zero chunk id, and its
value is the context window of its key. -/
theorem context_fold_mem (corpus : List Doc) :
    ∀ (results : List SearchResult) (m : List (Int × List ContextChunk))
      (p : Int × List ContextChunk),
      p ∈ results.foldl (fun m r =>
        match r.chunk_id with
        | some cid =>
            if r.source = some ("mormon".toList) ∧ cid ≠ 0 then
              dictInsert m cid (get_chunk_context corpus cid ("mormon".toList) 2)
            else m
        | none => m) m →
      p ∈ m ∨ ∃ r ∈ results, ∃ cid : Int, r.chunk_id = some cid ∧
        r.source = some ("mormon".toList) ∧ cid ≠ 0 ∧ p.1 = cid ∧
        p.2 = get_chunk_context corpus cid ("mormon".toList) 2 := by
  intro results
  induction results with
  | nil => intro m p hp; exact Or.inl hp
  | cons r rest ih =>
      intro m p hp
      rw [List.foldl_cons] at hp
      rcases ih _ p hp with hin | ⟨r2, hr2, cid, h1, h2, h3, h4, h5⟩
      · cases hcid : r.chunk_id with
        | none =>
            rw [hcid] at hin
            exact Or.inl hin
        | some cid =>
            rw [hcid] at hin
            dsimp only at hin
            by_cases hcond : r.source = some ("mormon".toList) ∧ cid ≠ 0
            · rw [if_pos hcond] at hin
              rcases mem_dictInsert hin with hold | hnew
              · exact Or.inl hold
              · refine Or.inr ⟨r, List.mem_cons_self _ _, cid, hcid, hcond.1, hcond.2, ?_, ?_⟩
                · rw [hnew]
                · rw [hnew]
            · rw [if_neg hcond] at hin
              exact Or.inl hin
      · exact Or.inr ⟨r2, List.mem_cons_of_mem _ hr2, cid, h1, h2, h3, h4, h5⟩

/-- Counterexample for claim C8: with `includeContext = false` the returned
record carries no `hasSequentialContent` flag at all (the source returns a
dictionary without that key), modelled as the field being `none`. -/
theorem search_with_context_false_drops_flag :
    (search_with_context trivialEnv [] [] 0 false).has_sequential_content = none := rfl

/-- Claim C8 (amended): `search_with_context` always returns the results of
`search` together with a context map; with `includeContext = true` the
record carries the `hasSequentialContent` flag, true exactly when some
result has the "mormon" source, and every context entry is keyed by the
non-zero chunk id of a "mormon" result and holds that chunk's context
window; with `includeContext = false` the context map is empty and the
flag is absent. -/
theorem search_with_context_shape :
    ∀ (env : SearchEnv) (corpus : List Doc) (query : Str) (k : Nat),
      (search_with_context env corpus query k true).results = search env corpus query k ∧
      (search_with_context env corpus query k true).has_sequential_content
        = some ((search env corpus query k).any
            (fun r => decide (r.source = some ("mormon".toList)))) ∧
      (∀ p ∈ (search_with_context env corpus query k true).context,
        ∃ r ∈ search env corpus query k, ∃ cid : Int, r.chunk_id = some cid ∧
          r.source = some ("mormon".toList) ∧ cid ≠ 0 ∧ p.1 = cid ∧
          p.2 = get_chunk_context corpus cid ("mormon".toList) 2) ∧
      (search_with_context env corpus query k false)
        = { results := search env corpus query k, context := [],
            has_sequential_content := none } := by
  intro env corpus query k
  refine ⟨rfl, rfl, ?_, rfl⟩
  intro p hp
  have h := context_fold_mem corpus (search env corpus query k) [] p hp
  rcases h with hin | hgood
  · cases hin
  · exact hgood

/-- `findIdx?` with accumulator `i` returns an index at least `i` and less
than `i` plus the list length. -/
theorem findIdx?_acc_bound {α : Type} (p : α → Bool) :
    ∀ (l : List α) (i j : Nat), List.findIdx? p l i = some j → i ≤ j ∧ j - i < l.length := by
  intro l
  induction l with
  | nil => intro i j h; simp [List.findIdx?] at h
  | cons a l ih =>
      intro i j h
      rw [List.findIdx?_cons] at h
      by_cases hpa : p a = true
      · rw [if_pos hpa] at h
        have : i = j := Option.some.inj h
        subst this
        simp
      · rw [if_neg hpa] at h
        obtain ⟨h1, h2⟩ := ih (i + 1) j h
        constructor
        · omega
        · simp only [List.length_cons]; omega

/-- Python indexing only yields members of the list. -/
theorem pyIndex_mem {corpus : List Doc} {idx : Int} {d : Doc}
    (h : pyIndex corpus idx = some d) : d ∈ corpus := by
  unfold pyIndex at h
  by_cases h0 : (0 : Int) ≤ idx
  · rw [if_pos h0] at h
    obtain ⟨hlt, he⟩ := List.get?_eq_some.mp h
    rw [← he]
    exact List.get_mem _ _ _
  · rw [if_neg h0] at h
    obtain ⟨hlt, he⟩ := List.get?_eq_some.mp h
    rw [← he]
    exact List.get_mem _ _ _

/-- Every scored candidate's title and content come from a corpus document. -/
theorem enhanced_mem_doc (env : SearchEnv) (corpus : List Doc) (query : Str) (k : Nat) :
    ∀ r ∈ enhancedResults env corpus query k,
      ∃ d ∈ corpus, r.title = d.title ∧ r.content = d.content := by
  intro r hr
  simp only [enhancedResults] at hr
  rcases List.mem_map.mp hr with ⟨item, hitem, hre⟩
  have hmem : item.doc ∈ corpus := by
    simp only [retrievedResults] at hitem
    rcases List.mem_filterMap.mp hitem with ⟨row, _, hfrow⟩
    by_cases hlt : row.2 < (corpus.length : Int)
    · rw [if_pos hlt] at hfrow
      cases hpy : pyIndex corpus row.2 with
      | none => rw [hpy] at hfrow; exact absurd hfrow (by simp)
      | some d =>
          rw [hpy] at hfrow
          rw [Option.map_some'] at hfrow
          have hd := pyIndex_mem hpy
          rw [← Option.some.inj hfrow]
          exact hd
    · rw [if_neg hlt] at hfrow
      exact absurd hfrow (by simp)
  refine ⟨item.doc, hmem, ?_, ?_⟩ <;> rw [← hre]

/-- The metadata loop always sets a chunk id on a result whose title and
content match some corpus document. -/
theorem annotate_chunk_some {corpus : List Doc} {r : SearchResult}
    (h : ∃ d ∈ corpus, r.title = d.title ∧ r.content = d.content) :
    (annotate corpus r).chunk_id.isSome = true := by
  obtain ⟨d, hd, ht, hc⟩ := h
  have hpos : corpus.length > 0 := List.length_pos.mpr (List.ne_nil_of_mem hd)
  unfold annotate
  rw [if_pos hpos]
  have hfind : List.findIdx?
      (fun d0 => decide (d0.title = r.title) && decide (d0.content = r.content)) corpus
      ≠ none := by
    rw [Ne, List.findIdx?_eq_none_iff]
    intro hall
    have htrue : (decide (d.title = r.title) && decide (d.content = r.content)) = true := by
      rw [ht, hc]; simp
    have hfalse : (decide (d.title = r.title) && decide (d.content = r.content)) = false :=
      hall d hd
    exact absurd (htrue.symm.trans hfalse) (by decide)
  cases hfi : List.findIdx?
      (fun d0 => decide (d0.title = r.title) && decide (d0.content = r.content)) corpus with
  | none => exact absurd hfi hfind
  | some i =>
      have hlt : i < corpus.length := by
        have := findIdx?_acc_bound _ corpus 0 i hfi
        omega
      cases hget : corpus.get? i with
      | none =>
          rw [List.get?_eq_none] at hget
          omega
      | some d2 =>
          dsimp only
          rw [hget]
          rfl

/-- Claim C2: provided the index returns at most the requested
`min(k*2, corpusSize)` rows (the FAISS contract), `search` returns at most
`min(k, corpusSize)` results; the returned list is a permutation of the
top-k prefix of the candidates sorted by descending fused score, re-sorted
ascending by the chunk-id key (`chunk_id` defaulting to 999); and every
returned result carries a chunk id, so the "results without a chunk id
sort last" clause is vacuous. -/
theorem search_returns_reordered_topk :
    ∀ (env : SearchEnv) (corpus : List Doc) (query : Str) (k : Nat),
      (env.indexSearch (env.expand query) (min (k * 2) corpus.length)).length
          ≤ min (k * 2) corpus.length →
      ((search env corpus query k).length ≤ min k corpus.length ∧
       (search env corpus query k).Perm (topKResults env corpus query k) ∧
       List.Pairwise (fun a b => chunkKey a ≤ chunkKey b) (search env corpus query k) ∧
       List.Pairwise (fun a b => b.combined_score ≤ a.combined_score)
         ((enhancedResults env corpus query k).mergeSort descCombined) ∧
       (∀ r ∈ search env corpus query k, r.chunk_id.isSome = true)) := by
  intro env corpus query k hrows
  have htransA : ∀ (a b c : SearchResult),
      ascChunk a b = true → ascChunk b c = true → ascChunk a c = true := by
    intro a b c hab hbc
    simp only [ascChunk, decide_eq_true_eq] at hab hbc ⊢
    exact le_trans hab hbc
  have htotalA : ∀ (a b : SearchResult), (ascChunk a b || ascChunk b a) = true := by
    intro a b
    simp only [ascChunk, Bool.or_eq_true, decide_eq_true_eq]
    exact le_total _ _
  have htransD : ∀ (a b c : SearchResult),
      descCombined a b = true → descCombined b c = true → descCombined a c = true := by
    intro a b c hab hbc
    simp only [descCombined, decide_eq_true_eq] at hab hbc ⊢
    exact le_trans hbc hab
  have htotalD : ∀ (a b : SearchResult), (descCombined a b || descCombined b a) = true := by
    intro a b
    simp only [descCombined, Bool.or_eq_true, decide_eq_true_eq]
    exact le_total _ _
  have hlen_enh : (enhancedResults env corpus query k).length ≤ min (k * 2) corpus.length := by
    simp only [enhancedResults, retrievedResults, List.length_map]
    exact le_trans (List.length_filterMap_le _ _) hrows
  have hperm : (search env corpus query k).Perm (topKResults env corpus query k) :=
    List.mergeSort_perm _ ascChunk
  refine ⟨?_, hperm, ?_, ?_, ?_⟩
  · have h1 : (search env corpus query k).length = (topKResults env corpus query k).length :=
      hperm.length_eq
    have h2 : (topKResults env corpus query k).length
        = min k (rankedResults env corpus query k).length := by
      simp [topKResults]
    have h3 : (rankedResults env corpus query k).length
        = (enhancedResults env corpus query k).length := by
      simp [rankedResults, List.length_mergeSort]
    rw [h1, h2, h3]
    omega
  · exact List.Pairwise.imp (fun hab => of_decide_eq_true hab)
      (List.sorted_mergeSort htransA htotalA (topKResults env corpus query k))
  · exact List.Pairwise.imp (fun hab => of_decide_eq_true hab)
      (List.sorted_mergeSort htransD htotalD (enhancedResults env corpus query k))
  · intro r hr
    have hr_top : r ∈ topKResults env corpus query k := hperm.mem_iff.mp hr
    have hr_ranked : r ∈ rankedResults env corpus query k :=
      List.Sublist.mem hr_top (List.take_sublist _ _)
    rcases List.mem_map.mp hr_ranked with ⟨r0, hr0, hre⟩
    have hr0_enh : r0 ∈ enhancedResults env corpus query k :=
      (List.mergeSort_perm _ descCombined).mem_iff.mp hr0
    have hdoc := enhanced_mem_doc env corpus query k r0 hr0_enh
    rw [← hre]
    exact annotate_chunk_some hdoc

/-- Witness for claim C2 on the default corpus with two retrieved rows. -/
theorem search_returns_reordered_topk_witness :
    ((demoEnv.indexSearch (demoEnv.expand []) (min (2 * 2) get_default_corpus.length)).length
        ≤ min (2 * 2) get_default_corpus.length) ∧
    ((search demoEnv get_default_corpus [] 2).length ≤ min 2 get_default_corpus.length ∧
     (search demoEnv get_default_corpus [] 2).Perm
       (topKResults demoEnv get_default_corpus [] 2) ∧
     List.Pairwise (fun a b => chunkKey a ≤ chunkKey b)
       (search demoEnv get_default_corpus [] 2) ∧
     List.Pairwise (fun a b => b.combined_score ≤ a.combined_score)
       ((enhancedResults demoEnv get_default_corpus [] 2).mergeSort descCombined) ∧
     (∀ r ∈ search demoEnv get_default_corpus [] 2, r.chunk_id.isSome = true)) :=
  ⟨by decide, search_returns_reordered_topk demoEnv get_default_corpus [] 2 (by decide)⟩
